import Mathlib

/-!
Verification of the EQcorrscan numeric core, as declared in
eqcorrscan/utils/src/libutils.h: normalized cross-correlation (time-domain
and frequency-domain), peak finding and declustering, thread dispatch, and
FFT buffer lifecycle.  The header is the only C source available; the
bodies of the declared functions are modelled from the specification, with
samples embedded as exact rationals and correlation values as exact reals.
-/

-- Minimum variance to compute correlations (libutils.h line 40).
def ACCEPTED_DIFF : ℚ := 1 / 10 ^ 15

-- Variance level at which the user is warned (libutils.h line 42).
def WARN_DIFF : ℚ := 1 / 10 ^ 10

/-- Sample access into a signal buffer; out-of-range reads give 0,
modelling the zero-padded scratch buffers. -/
def sample (xs : List ℚ) (j : ℕ) : ℚ := xs.getD j 0

/-- Modelled from the spec (§4.1 Statistics Accumulator; multi_corr.c is not
under src/): the sum of the length-n window of channel c starting at i. -/
def windowSum (c : List ℚ) (i n : ℕ) : ℚ := ∑ j ∈ Finset.range n, sample c (i + j)

/-- Modelled from the spec (§4.1): the sum of squares of the length-n window
of channel c starting at i. -/
def windowSumSq (c : List ℚ) (i n : ℕ) : ℚ := ∑ j ∈ Finset.range n, (sample c (i + j)) ^ 2

/-- Modelled from the spec (§4.1): the mean of the length-n window. -/
def windowMean (c : List ℚ) (i n : ℕ) : ℚ := windowSum c i n / n

/-- Modelled from the spec (§4.1): the variance of the length-n window
(mean of squares minus square of the mean). -/
def windowVar (c : List ℚ) (i n : ℕ) : ℚ := windowSumSq c i n / n - windowMean c i n ^ 2

/-- Modelled from the spec (§4.2): the sliding dot product of template t
with the window of channel c starting at i. -/
def windowDot (t c : List ℚ) (i : ℕ) : ℚ :=
  ∑ j ∈ Finset.range t.length, sample t j * sample c (i + j)

/-- Modelled from the spec (§4.2): the numerator
window·template − n·mean_w·mean_t of the normalized cross-correlation. -/
def corrNum (t c : List ℚ) (i : ℕ) : ℚ :=
  windowDot t c i - t.length * windowMean c i t.length * windowMean t 0 t.length

/-- Modelled from the spec (§4.1, §7): a window position is degenerate when
the window variance or the template variance falls below ACCEPTED_DIFF. -/
def degenerateAt (t c : List ℚ) (i : ℕ) : Prop :=
  windowVar c i t.length < ACCEPTED_DIFF ∨ windowVar t 0 t.length < ACCEPTED_DIFF

instance (t c : List ℚ) (i : ℕ) : Decidable (degenerateAt t c i) :=
  inferInstanceAs (Decidable (_ ∨ _))

/-- Modelled from the spec (§4.2, §7): the normalized cross-correlation
coefficient (window·template − n·mean_w·mean_t) / (n·std_w·std_t) at window
position i; degenerate positions are forced to 0. -/
noncomputable def corrVal (t c : List ℚ) (i : ℕ) : ℝ :=
  if degenerateAt t c i then 0
  else (corrNum t c i : ℝ) /
    ((t.length : ℝ) * Real.sqrt (windowVar c i t.length) * Real.sqrt (windowVar t 0 t.length))

/-- Length of the correlation trace: channel length − template length + 1
(0 when the template is longer than the channel). -/
def traceLen (t c : List ℚ) : ℕ := c.length + 1 - t.length

/-- Modelled from the spec (§4.2; time_corr.c is not under src/): the
time-domain normalized cross-correlation trace of normxcorr_time
(libutils.h line 69), one coefficient per valid window position. -/
noncomputable def normxcorr_time (t c : List ℚ) : List ℝ :=
  (List.range (traceLen t c)).map (corrVal t c)

/-- Modelled from the spec (§4.3): the transform size, the next
fast-transform-friendly (power-of-two) size ≥ channel length + template
length − 1, so linear correlation is free of circular wraparound. -/
def fftSize (t c : List ℚ) : ℕ := 2 ^ Nat.clog 2 (c.length + t.length - 1)

/-- Modelled from the spec (§4.3): the circular cross-correlation at lag i
of the zero-padded template and channel buffers of transform size N.  By the
convolution theorem this is exactly what transform–multiply–inverse
computes, so the DFT itself is not re-modelled. -/
def circCorr (t c : List ℚ) (N i : ℕ) : ℚ :=
  ∑ k ∈ Finset.range N, sample t k * sample c ((i + k) % N)

/-- Modelled from the spec (§4.3): frequency-domain correlation numerator —
the inverse-transformed spectral product, recentred with the same
precomputed sliding-window statistics as the time-domain path. -/
def corrNumF (t c : List ℚ) (i : ℕ) : ℚ :=
  circCorr t c (fftSize t c) i - t.length * windowMean c i t.length * windowMean t 0 t.length

/-- Modelled from the spec (§4.3): the frequency-domain correlation
coefficient at window position i, normalized pointwise with the Statistics
Accumulator output; degenerate positions are forced to 0. -/
noncomputable def corrValF (t c : List ℚ) (i : ℕ) : ℝ :=
  if degenerateAt t c i then 0
  else (corrNumF t c i : ℝ) /
    ((t.length : ℝ) * Real.sqrt (windowVar c i t.length) * Real.sqrt (windowVar t 0 t.length))

/-- Modelled from the spec (§4.3; multi_corr.c is not under src/): the
FFT-based normalized cross-correlation trace of normxcorr_fftw
(libutils.h line 52). -/
noncomputable def normxcorr_fftw (t c : List ℚ) : List ℝ :=
  (List.range (traceLen t c)).map (corrValF t c)

lemma windowSum_zero_start (t : List ℚ) (n : ℕ) :
    windowSum t 0 n = ∑ j ∈ Finset.range n, sample t j := by
  simp [windowSum]

lemma windowSumSq_zero_start (t : List ℚ) (n : ℕ) :
    windowSumSq t 0 n = ∑ j ∈ Finset.range n, (sample t j) ^ 2 := by
  simp [windowSumSq]

lemma windowMean_mul (c : List ℚ) (i n : ℕ) (hn : n ≠ 0) :
    (n : ℚ) * windowMean c i n = windowSum c i n := by
  have hne : (n : ℚ) ≠ 0 := Nat.cast_ne_zero.mpr hn
  rw [windowMean]
  field_simp

lemma sum_centered_sq (c : List ℚ) (i n : ℕ) (hn : n ≠ 0) :
    ∑ j ∈ Finset.range n, (sample c (i + j) - windowMean c i n) ^ 2
      = n * windowVar c i n := by
  have hne : (n : ℚ) ≠ 0 := Nat.cast_ne_zero.mpr hn
  have expand : ∑ j ∈ Finset.range n, (sample c (i + j) - windowMean c i n) ^ 2
      = windowSumSq c i n - 2 * windowMean c i n * windowSum c i n
        + n * windowMean c i n ^ 2 := by
    have hterm : ∀ j ∈ Finset.range n,
        (sample c (i + j) - windowMean c i n) ^ 2
        = sample c (i + j) ^ 2 - 2 * windowMean c i n * sample c (i + j)
          + windowMean c i n ^ 2 := by
      intro j _
      ring
    rw [Finset.sum_congr rfl hterm, Finset.sum_add_distrib, Finset.sum_sub_distrib,
      Finset.sum_const, Finset.card_range, ← Finset.mul_sum, nsmul_eq_mul,
      windowSumSq, windowSum]
  rw [expand, ← windowMean_mul c i n hn, windowVar]
  field_simp
  ring

lemma windowVar_nonneg (c : List ℚ) (i n : ℕ) : 0 ≤ windowVar c i n := by
  rcases Nat.eq_zero_or_pos n with h | h
  · subst h
    simp [windowVar, windowMean, windowSum, windowSumSq]
  · have hn : n ≠ 0 := Nat.pos_iff_ne_zero.mp h
    have hsum : 0 ≤ ∑ j ∈ Finset.range n, (sample c (i + j) - windowMean c i n) ^ 2 :=
      Finset.sum_nonneg fun j _ => sq_nonneg _
    rw [sum_centered_sq c i n hn] at hsum
    have hnpos : (0 : ℚ) < n := by exact_mod_cast h
    nlinarith

lemma corrNum_eq_centered (t c : List ℚ) (i : ℕ) (hn : t.length ≠ 0) :
    corrNum t c i = ∑ j ∈ Finset.range t.length,
      (sample c (i + j) - windowMean c i t.length) * (sample t j - windowMean t 0 t.length) := by
  set n := t.length with hnd
  have hne : (n : ℚ) ≠ 0 := Nat.cast_ne_zero.mpr hn
  have hsc : ∑ j ∈ Finset.range n, sample c (i + j) = (n : ℚ) * windowMean c i n := by
    rw [windowMean_mul c i n hn, windowSum]
  have hst : ∑ j ∈ Finset.range n, sample t j = (n : ℚ) * windowMean t 0 n := by
    rw [windowMean_mul t 0 n hn, windowSum_zero_start]
  have expand : ∑ j ∈ Finset.range n,
      (sample c (i + j) - windowMean c i n) * (sample t j - windowMean t 0 n)
      = windowDot t c i
        - windowMean t 0 n * ((n : ℚ) * windowMean c i n)
        - windowMean c i n * ((n : ℚ) * windowMean t 0 n)
        + n * (windowMean c i n * windowMean t 0 n) := by
    have : ∀ j ∈ Finset.range n,
        (sample c (i + j) - windowMean c i n) * (sample t j - windowMean t 0 n)
        = sample t j * sample c (i + j)
          - windowMean t 0 n * sample c (i + j)
          - windowMean c i n * sample t j
          + windowMean c i n * windowMean t 0 n := by
      intro j _
      ring
    rw [Finset.sum_congr rfl this]
    rw [Finset.sum_add_distrib, Finset.sum_sub_distrib, Finset.sum_sub_distrib,
      Finset.sum_const, Finset.card_range, ← Finset.mul_sum, ← Finset.mul_sum,
      hsc, hst, windowDot]
    ring
  rw [expand, corrNum]
  ring

lemma sum_centered_sq_template (t : List ℚ) (hn : t.length ≠ 0) :
    ∑ j ∈ Finset.range t.length, (sample t j - windowMean t 0 t.length) ^ 2
      = t.length * windowVar t 0 t.length := by
  have h := sum_centered_sq t 0 t.length hn
  simpa using h

lemma corrNum_sq_le (t c : List ℚ) (i : ℕ) (hn : t.length ≠ 0) :
    corrNum t c i ^ 2
      ≤ (t.length * windowVar c i t.length) * (t.length * windowVar t 0 t.length) := by
  rw [corrNum_eq_centered t c i hn, ← sum_centered_sq c i t.length hn,
    ← sum_centered_sq_template t hn]
  exact Finset.sum_mul_sq_le_sq_mul_sq _ _ _

lemma ACCEPTED_DIFF_pos : 0 < ACCEPTED_DIFF := by norm_num [ACCEPTED_DIFF]

lemma windowVar_nil_length (t : List ℚ) (h0 : t.length = 0) : windowVar t 0 t.length = 0 := by
  simp [windowVar, windowMean, windowSum, windowSumSq, h0]

lemma template_length_ne_zero (t c : List ℚ) (i : ℕ) (h : ¬ degenerateAt t c i) :
    t.length ≠ 0 := by
  intro h0
  apply h
  right
  rw [windowVar_nil_length t h0]
  exact ACCEPTED_DIFF_pos

lemma not_degenerate_bounds (t c : List ℚ) (i : ℕ) (h : ¬ degenerateAt t c i) :
    0 < windowVar c i t.length ∧ 0 < windowVar t 0 t.length := by
  rw [degenerateAt, not_or, not_lt, not_lt] at h
  exact ⟨lt_of_lt_of_le ACCEPTED_DIFF_pos h.1, lt_of_lt_of_le ACCEPTED_DIFF_pos h.2⟩

lemma corrVal_degenerate (t c : List ℚ) (i : ℕ) (h : degenerateAt t c i) :
    corrVal t c i = 0 := by
  rw [corrVal, if_pos h]

lemma abs_corrVal_le_one (t c : List ℚ) (i : ℕ) (h : ¬ degenerateAt t c i) :
    |corrVal t c i| ≤ 1 := by
  have hn : t.length ≠ 0 := template_length_ne_zero t c i h
  obtain ⟨hvw, hvt⟩ := not_degenerate_bounds t c i h
  have hvwR : (0:ℝ) < (windowVar c i t.length : ℝ) := by exact_mod_cast hvw
  have hvtR : (0:ℝ) < (windowVar t 0 t.length : ℝ) := by exact_mod_cast hvt
  have hnR : (0:ℝ) < (t.length : ℝ) := by exact_mod_cast Nat.pos_of_ne_zero hn
  have hden : (0:ℝ) < (t.length : ℝ) * Real.sqrt (windowVar c i t.length)
      * Real.sqrt (windowVar t 0 t.length) := by
    have h1 := Real.sqrt_pos.mpr hvwR
    have h2 := Real.sqrt_pos.mpr hvtR
    positivity
  rw [corrVal, if_neg h, abs_div, abs_of_pos hden, div_le_one hden]
  have hsq : ((corrNum t c i : ℝ)) ^ 2
      ≤ ((t.length : ℝ) * Real.sqrt (windowVar c i t.length)
          * Real.sqrt (windowVar t 0 t.length)) ^ 2 := by
    have hq := corrNum_sq_le t c i hn
    have hqR : ((corrNum t c i : ℝ)) ^ 2
        ≤ ((t.length : ℝ) * (windowVar c i t.length : ℝ))
          * ((t.length : ℝ) * (windowVar t 0 t.length : ℝ)) := by
      exact_mod_cast hq
    calc ((corrNum t c i : ℝ)) ^ 2
        ≤ ((t.length : ℝ) * (windowVar c i t.length : ℝ))
            * ((t.length : ℝ) * (windowVar t 0 t.length : ℝ)) := hqR
      _ = ((t.length : ℝ) * Real.sqrt (windowVar c i t.length)
            * Real.sqrt (windowVar t 0 t.length)) ^ 2 := by
          rw [mul_pow, mul_pow, Real.sq_sqrt hvwR.le, Real.sq_sqrt hvtR.le]
          ring
  calc |(corrNum t c i : ℝ)|
      = Real.sqrt (((corrNum t c i : ℝ)) ^ 2) := (Real.sqrt_sq_eq_abs _).symm
    _ ≤ Real.sqrt (((t.length : ℝ) * Real.sqrt (windowVar c i t.length)
          * Real.sqrt (windowVar t 0 t.length)) ^ 2) := Real.sqrt_le_sqrt hsq
    _ = (t.length : ℝ) * Real.sqrt (windowVar c i t.length)
          * Real.sqrt (windowVar t 0 t.length) := Real.sqrt_sq hden.le

lemma normxcorr_time_getD (t c : List ℚ) (i : ℕ) (h : i < traceLen t c) :
    (normxcorr_time t c).getD i 0 = corrVal t c i := by
  rw [normxcorr_time, List.getD_eq_getElem?_getD, List.getElem?_map, List.getElem?_range h]
  rfl

lemma normxcorr_fftw_getD (t c : List ℚ) (i : ℕ) (h : i < traceLen t c) :
    (normxcorr_fftw t c).getD i 0 = corrValF t c i := by
  rw [normxcorr_fftw, List.getD_eq_getElem?_getD, List.getElem?_map, List.getElem?_range h]
  rfl

lemma circCorr_eq_windowDot (t c : List ℚ) (N i : ℕ) (hN : c.length ≤ N)
    (hi : i + t.length ≤ c.length) : circCorr t c N i = windowDot t c i := by
  rw [circCorr, windowDot]
  have hsub : Finset.range t.length ⊆ Finset.range N := by
    apply Finset.range_subset.mpr
    omega
  calc ∑ k ∈ Finset.range N, sample t k * sample c ((i + k) % N)
      = ∑ k ∈ Finset.range t.length, sample t k * sample c ((i + k) % N) := by
        refine (Finset.sum_subset hsub ?_).symm
        intro k _ hk
        have hge : t.length ≤ k := by simpa using hk
        rw [sample, List.getD_eq_default _ _ hge, zero_mul]
    _ = ∑ k ∈ Finset.range t.length, sample t k * sample c (i + k) := by
        refine Finset.sum_congr rfl fun k hk => ?_
        have hklt : k < t.length := Finset.mem_range.mp hk
        rw [Nat.mod_eq_of_lt (by omega : i + k < N)]

lemma fftSize_ge (t c : List ℚ) (ht : t.length ≠ 0) : c.length ≤ fftSize t c := by
  have h := Nat.le_pow_clog (by norm_num : 1 < 2) (c.length + t.length - 1)
  rw [fftSize]
  omega

lemma corrValF_eq_corrVal (t c : List ℚ) (i : ℕ) (h : i < traceLen t c) :
    corrValF t c i = corrVal t c i := by
  by_cases hd : degenerateAt t c i
  · rw [corrValF, corrVal, if_pos hd, if_pos hd]
  · have hn : t.length ≠ 0 := template_length_ne_zero t c i hd
    have hi : i + t.length ≤ c.length := by
      rw [traceLen] at h
      omega
    rw [corrValF, corrVal, if_neg hd, if_neg hd, corrNumF, corrNum,
      circCorr_eq_windowDot t c _ i (fftSize_ge t c hn) hi]

/-- Claim C1: for every template and channel all of whose windows have
sufficient variance (above ACCEPTED_DIFF), the time-domain correlator and
the frequency-domain correlator agree within 1e-5 at every valid window
index.  In this exact-arithmetic model they agree exactly, which implies
the floating-point tolerance. -/
theorem normxcorr_time_fftw_agree (t c : List ℚ)
    (_h : ∀ i < traceLen t c, ¬ degenerateAt t c i) :
    ∀ i < traceLen t c,
      |(normxcorr_time t c).getD i 0 - (normxcorr_fftw t c).getD i 0| ≤ 1 / 10 ^ 5 := by
  intro i hi
  rw [normxcorr_time_getD t c i hi, normxcorr_fftw_getD t c i hi,
    corrValF_eq_corrVal t c i hi, sub_self, abs_zero]
  norm_num

theorem normxcorr_time_fftw_agree_witness :
    |(normxcorr_time [1, 2] [1, 3, 2, 4]).getD 1 0
      - (normxcorr_fftw [1, 2] [1, 3, 2, 4]).getD 1 0| ≤ 1 / 10 ^ 5 := by
  refine normxcorr_time_fftw_agree [1, 2] [1, 3, 2, 4] ?_ 1 (by decide)
  intro i hi
  have h3 : i < 3 := by simpa [traceLen] using hi
  rw [degenerateAt, not_or]
  interval_cases i <;>
    constructor <;>
      norm_num [windowVar, windowMean, windowSum, windowSumSq, sample,
        ACCEPTED_DIFF, Finset.sum_range_succ]

/-- Claim C2: a window position whose variance is below ACCEPTED_DIFF yields
correlation exactly 0 (never NaN — the values of this model are genuine
reals), and the full trace is still produced: computation continues. -/
theorem degenerate_window_zero (t c : List ℚ) (i : ℕ) (hi : i < traceLen t c)
    (h : windowVar c i t.length < ACCEPTED_DIFF) :
    (normxcorr_time t c).getD i 0 = 0 ∧ (normxcorr_time t c).length = traceLen t c := by
  constructor
  · rw [normxcorr_time_getD t c i hi]
    exact corrVal_degenerate t c i (Or.inl h)
  · simp [normxcorr_time]

theorem degenerate_window_zero_witness :
    (normxcorr_time [1, 2] [5, 5, 5, 9]).getD 0 0 = 0 ∧
      (normxcorr_time [1, 2] [5, 5, 5, 9]).length = traceLen [1, 2] [5, 5, 5, 9] :=
  degenerate_window_zero [1, 2] [5, 5, 5, 9] 0 (by decide)
    (by norm_num [windowVar, windowMean, windowSum, windowSumSq, sample,
      ACCEPTED_DIFF, Finset.sum_range_succ])

/-- Claim C3: every correlation value at a window position with sufficient
variance lies in [-1, 1], and degenerate positions are not clamped into
range but carry the designated degenerate marker 0. -/
theorem corr_values_in_range (t c : List ℚ) (i : ℕ) (hi : i < traceLen t c) :
    (¬ degenerateAt t c i →
        -1 ≤ (normxcorr_time t c).getD i 0 ∧ (normxcorr_time t c).getD i 0 ≤ 1) ∧
      (degenerateAt t c i → (normxcorr_time t c).getD i 0 = 0) := by
  constructor
  · intro h
    have habs := abs_corrVal_le_one t c i h
    rw [normxcorr_time_getD t c i hi]
    exact abs_le.mp habs
  · intro h
    rw [normxcorr_time_getD t c i hi]
    exact corrVal_degenerate t c i h

theorem corr_values_in_range_witness :
    -1 ≤ (normxcorr_time [1, 2] [1, 3, 2, 4]).getD 0 0 ∧
      (normxcorr_time [1, 2] [1, 3, 2, 4]).getD 0 0 ≤ 1 :=
  (corr_values_in_range [1, 2] [1, 3, 2, 4] 0 (by decide)).1
    (by
      rw [degenerateAt, not_or]
      constructor <;>
        norm_num [windowVar, windowMean, windowSum, windowSumSq, sample,
          ACCEPTED_DIFF, Finset.sum_range_succ])

/-- Claim C8: correlating a non-degenerate template (variance not below
ACCEPTED_DIFF) against itself gives exactly 1 at the zero-offset position. -/
theorem self_correlation_one (t : List ℚ)
    (h : ¬ windowVar t 0 t.length < ACCEPTED_DIFF) :
    (normxcorr_time t t).getD 0 0 = 1 := by
  have hd : ¬ degenerateAt t t 0 := by
    rw [degenerateAt, not_or]
    exact ⟨h, h⟩
  have hn : t.length ≠ 0 := template_length_ne_zero t t 0 hd
  have hv : 0 < windowVar t 0 t.length := (not_degenerate_bounds t t 0 hd).2
  have h0 : (0:ℕ) < traceLen t t := by
    rw [traceLen]
    omega
  rw [normxcorr_time_getD t t 0 h0, corrVal, if_neg hd]
  have hdot : windowDot t t 0 = windowSumSq t 0 t.length := by
    rw [windowDot, windowSumSq]
    refine Finset.sum_congr rfl fun j _ => ?_
    rw [Nat.zero_add, sq]
  have hne : (t.length : ℚ) ≠ 0 := Nat.cast_ne_zero.mpr hn
  have hnum : corrNum t t 0 = t.length * windowVar t 0 t.length := by
    rw [corrNum, hdot, windowVar]
    field_simp
    ring
  rw [hnum]
  have hvR : (0:ℝ) < (windowVar t 0 t.length : ℝ) := by exact_mod_cast hv
  have hnR : (0:ℝ) < (t.length : ℝ) := by exact_mod_cast Nat.pos_of_ne_zero hn
  rw [mul_assoc, Real.mul_self_sqrt hvR.le]
  push_cast
  exact div_self (by positivity)

theorem self_correlation_one_witness :
    (normxcorr_time [1, 2] [1, 2]).getD 0 0 = 1 :=
  self_correlation_one [1, 2]
    (by norm_num [windowVar, windowMean, windowSum, windowSumSq, sample,
      ACCEPTED_DIFF, Finset.sum_range_succ])

/-- Modelled from the spec (§4.6; find_peaks.c is not under src/): position i
is a peak when the trace value exceeds the threshold and is strictly greater
than both immediately adjacent samples; at a trace boundary the missing
neighbour is ignored (the documented boundary tie-break). -/
def isPeakAt (tr : List ℚ) (thr : ℚ) (i : ℕ) : Prop :=
  thr < sample tr i ∧ (i = 0 ∨ sample tr (i - 1) < sample tr i) ∧
    (i = tr.length - 1 ∨ sample tr (i + 1) < sample tr i)

instance (tr : List ℚ) (thr : ℚ) (i : ℕ) : Decidable (isPeakAt tr thr i) :=
  inferInstanceAs (Decidable (_ ∧ _))

/-- Modelled from the spec (§4.6; find_peaks.c is not under src/): findpeaks
(libutils.h line 47) returns the ordered sequence of peak indices of a
correlation trace. -/
def findpeaks (tr : List ℚ) (thr : ℚ) : List ℕ :=
  (List.range tr.length).filter fun i => decide (isPeakAt tr thr i)

/-- Claim C5: the peak finder returns exactly the ordered sequence of indices
whose trace value exceeds the threshold and is strictly greater than both
adjacent samples (missing boundary neighbours are ignored); in particular on
[0,1,3,2,0,4,1] with threshold 1/2 the reported peaks are exactly [2, 5]. -/
theorem findpeaks_correct :
    (∀ (tr : List ℚ) (thr : ℚ) (i : ℕ),
        i ∈ findpeaks tr thr ↔ i < tr.length ∧ isPeakAt tr thr i) ∧
      (∀ (tr : List ℚ) (thr : ℚ), List.Sorted (· < ·) (findpeaks tr thr)) ∧
      findpeaks [0, 1, 3, 2, 0, 4, 1] (1 / 2) = [2, 5] := by
  refine ⟨?_, ?_, ?_⟩
  · intro tr thr i
    rw [findpeaks, List.mem_filter, List.mem_range]
    simp only [decide_eq_true_eq]
  · intro tr thr
    exact (List.pairwise_lt_range tr.length).filter _
  · norm_num [findpeaks, isPeakAt, sample, List.range_succ, List.filter]

/-- Ordering of candidate peaks by trace index. -/
def idxLe (p q : ℕ × ℚ) : Prop := p.1 ≤ q.1

instance : DecidableRel idxLe := fun p q => inferInstanceAs (Decidable (p.1 ≤ q.1))

instance : IsTotal (ℕ × ℚ) idxLe := ⟨fun p q => Nat.le_total p.1 q.1⟩

instance : IsTrans (ℕ × ℚ) idxLe := ⟨fun _ _ _ h1 h2 => Nat.le_trans h1 h2⟩

/-- Modelled from the spec (§4.7; find_peaks.c is not under src/): split an
index-sorted candidate list into maximal runs in which consecutive
candidates are closer than the minimum separation d — the transitive
proximity clusters. -/
def clusterGroups (d : ℕ) : List (ℕ × ℚ) → List (List (ℕ × ℚ))
  | [] => []
  | [p] => [[p]]
  | p :: q :: rest =>
    match clusterGroups d (q :: rest) with
    | [] => [[p]]
    | g :: gs => if q.1 < p.1 + d then (p :: g) :: gs else [p] :: g :: gs

/-- Modelled from the spec (§4.7): the element of a cluster with the highest
correlation value (the earliest such element on ties). -/
def pickMax : List (ℕ × ℚ) → Option (ℕ × ℚ)
  | [] => none
  | p :: ps =>
    match pickMax ps with
    | none => some p
    | some q => if p.2 < q.2 then some q else some p

/-- Modelled from the spec (§4.7, §6; find_peaks.c is not under src/):
decluster (libutils.h line 45) sorts the candidate peaks by index, forms the
transitive proximity clusters, and keeps exactly the highest-valued
candidate of each cluster. -/
def decluster (peaks : List (ℕ × ℚ)) (d : ℕ) : List (ℕ × ℚ) :=
  (clusterGroups d (List.insertionSort idxLe peaks)).filterMap pickMax

lemma clusterGroups_ne_nil (d : ℕ) (p : ℕ × ℚ) (ps : List (ℕ × ℚ)) :
    clusterGroups d (p :: ps) ≠ [] := by
  cases hps : ps with
  | nil => simp [clusterGroups]
  | cons q rest =>
    cases hgs : clusterGroups d (q :: rest) with
    | nil => simp [clusterGroups, hgs]
    | cons g gs =>
      by_cases hc : q.1 < p.1 + d <;> simp [clusterGroups, hgs, hc]

lemma clusterGroups_cons_head (d : ℕ) (p : ℕ × ℚ) (ps : List (ℕ × ℚ)) :
    ∃ g gs, clusterGroups d (p :: ps) = (p :: g) :: gs := by
  cases hps : ps with
  | nil => exact ⟨[], [], by simp [clusterGroups]⟩
  | cons q rest =>
    cases hgs : clusterGroups d (q :: rest) with
    | nil => exact absurd hgs (clusterGroups_ne_nil d q rest)
    | cons g gs =>
      by_cases hc : q.1 < p.1 + d
      · exact ⟨g, gs, by simp [clusterGroups, hgs, hc]⟩
      · exact ⟨[], g :: gs, by simp [clusterGroups, hgs, hc]⟩

lemma clusterGroups_flatten (d : ℕ) :
    ∀ ps : List (ℕ × ℚ), (clusterGroups d ps).flatten = ps := by
  intro ps
  induction ps with
  | nil => simp [clusterGroups]
  | cons p ps ih =>
    cases hps : ps with
    | nil => simp [clusterGroups]
    | cons q rest =>
      subst hps
      cases hgs : clusterGroups d (q :: rest) with
      | nil => exact absurd hgs (clusterGroups_ne_nil d q rest)
      | cons g gs =>
        rw [hgs] at ih
        by_cases hc : q.1 < p.1 + d
        · simp only [clusterGroups, hgs, if_pos hc, List.flatten_cons] at ih ⊢
          simp_all
        · simp only [clusterGroups, hgs, if_neg hc, List.flatten_cons] at ih ⊢
          simp_all

lemma clusterGroups_mem_ne_nil (d : ℕ) :
    ∀ (ps : List (ℕ × ℚ)) (g : List (ℕ × ℚ)), g ∈ clusterGroups d ps → g ≠ [] := by
  intro ps
  induction ps with
  | nil => simp [clusterGroups]
  | cons p ps ih =>
    intro g hg
    cases hps : ps with
    | nil =>
      subst hps
      simp [clusterGroups] at hg
      simp [hg]
    | cons q rest =>
      subst hps
      cases hgs : clusterGroups d (q :: rest) with
      | nil => exact absurd hgs (clusterGroups_ne_nil d q rest)
      | cons g' gs' =>
        simp only [clusterGroups, hgs] at hg
        by_cases hc : q.1 < p.1 + d
        · rw [if_pos hc] at hg
          rcases List.mem_cons.mp hg with h | h
          · simp [h]
          · exact ih g (by rw [hgs]; exact List.mem_cons_of_mem _ h)
        · rw [if_neg hc] at hg
          rcases List.mem_cons.mp hg with h | h
          · simp [h]
          · exact ih g (by rw [hgs]; exact h)

lemma mem_of_mem_clusterGroups (d : ℕ) (ps g : List (ℕ × ℚ)) (x : ℕ × ℚ)
    (hg : g ∈ clusterGroups d ps) (hx : x ∈ g) : x ∈ ps := by
  rw [← clusterGroups_flatten d ps]
  exact List.mem_flatten.mpr ⟨g, hg, hx⟩

lemma clusterGroups_chain_close (d : ℕ) :
    ∀ ps : List (ℕ × ℚ), List.Sorted idxLe ps →
      ∀ g ∈ clusterGroups d ps, List.Chain' (fun p q => q.1 < p.1 + d) g := by
  intro ps
  induction ps with
  | nil => simp [clusterGroups]
  | cons p ps ih =>
    intro hs g hg
    have hs' : List.Sorted idxLe ps := (List.sorted_cons.mp hs).2
    cases hps : ps with
    | nil =>
      subst hps
      simp only [clusterGroups, List.mem_singleton] at hg
      subst hg
      exact List.chain'_singleton p
    | cons q rest =>
      subst hps
      cases hgs : clusterGroups d (q :: rest) with
      | nil => exact absurd hgs (clusterGroups_ne_nil d q rest)
      | cons g' gs' =>
        obtain ⟨g0, gs0, h0⟩ := clusterGroups_cons_head d q rest
        have hg' : g' = q :: g0 := by
          rw [h0] at hgs
          injection hgs with h1 _
          exact h1.symm
        simp only [clusterGroups, hgs] at hg
        by_cases hc : q.1 < p.1 + d
        · rw [if_pos hc] at hg
          rcases List.mem_cons.mp hg with h | h
          · subst h
            rw [hg']
            refine List.chain'_cons.mpr ⟨hc, ?_⟩
            have hcg := ih hs' g' (by rw [hgs]; exact List.mem_cons_self _ _)
            rw [hg'] at hcg
            exact hcg
          · exact ih hs' g (by rw [hgs]; exact List.mem_cons_of_mem _ h)
        · rw [if_neg hc] at hg
          rcases List.mem_cons.mp hg with h | h
          · subst h
            exact List.chain'_singleton p
          · exact ih hs' g (by rw [hgs]; exact h)

lemma clusterGroups_chain_sep (d : ℕ) :
    ∀ ps : List (ℕ × ℚ), List.Sorted idxLe ps →
      List.Chain' (fun g h => ∀ p ∈ g, ∀ q ∈ h, p.1 + d ≤ q.1) (clusterGroups d ps) := by
  intro ps
  induction ps with
  | nil => simp [clusterGroups]
  | cons p ps ih =>
    intro hs
    obtain ⟨hple, hs'⟩ := List.sorted_cons.mp hs
    cases hps : ps with
    | nil =>
      subst hps
      simp [clusterGroups]
    | cons q rest =>
      subst hps
      cases hgs : clusterGroups d (q :: rest) with
      | nil => exact absurd hgs (clusterGroups_ne_nil d q rest)
      | cons g' gs' =>
        have ihc := ih hs'
        rw [hgs] at ihc
        obtain ⟨g0, gs0, h0⟩ := clusterGroups_cons_head d q rest
        have hg' : g' = q :: g0 := by
          rw [h0] at hgs
          injection hgs with h1 _
          exact h1.symm
        obtain ⟨hrel, htail⟩ := List.chain'_cons'.mp ihc
        simp only [clusterGroups, hgs]
        by_cases hc : q.1 < p.1 + d
        · rw [if_pos hc]
          refine List.chain'_cons'.mpr ⟨?_, htail⟩
          intro h hh x hx y hy
          rcases List.mem_cons.mp hx with hxp | hxg
          · subst hxp
            have hq : q ∈ g' := by rw [hg']; exact List.mem_cons_self _ _
            have := hrel h hh q hq y hy
            have hpq : x.1 ≤ q.1 := hple q (List.mem_cons_self _ _)
            omega
          · exact hrel h hh x hxg y hy
        · rw [if_neg hc]
          refine List.chain'_cons'.mpr ⟨?_, ihc⟩
          intro h hh x hx y hy
          simp only [List.head?_cons, Option.mem_def, Option.some_inj] at hh
          subst hh
          simp only [List.mem_singleton] at hx
          subst hx
          have hy' : y ∈ q :: rest :=
            mem_of_mem_clusterGroups d (q :: rest) g' y (by rw [hgs]; exact List.mem_cons_self _ _) hy
          have hqle : q.1 ≤ y.1 := by
            rcases List.mem_cons.mp hy' with h1 | h1
            · rw [h1]
            · exact (List.sorted_cons.mp hs').1 y h1
          omega

lemma pickMax_isSome (g : List (ℕ × ℚ)) (h : g ≠ []) : ∃ m, pickMax g = some m := by
  cases g with
  | nil => exact absurd rfl h
  | cons p ps =>
    cases hq : pickMax ps with
    | none => exact ⟨p, by simp [pickMax, hq]⟩
    | some q =>
      by_cases hc : p.2 < q.2
      · exact ⟨q, by simp [pickMax, hq, hc]⟩
      · exact ⟨p, by simp [pickMax, hq, hc]⟩

lemma pickMax_none (g : List (ℕ × ℚ)) (h : pickMax g = none) : g = [] := by
  cases g with
  | nil => rfl
  | cons p ps =>
    obtain ⟨m, hm⟩ := pickMax_isSome (p :: ps) (by simp)
    rw [hm] at h
    cases h

lemma pickMax_mem : ∀ (g : List (ℕ × ℚ)) (m : ℕ × ℚ), pickMax g = some m → m ∈ g := by
  intro g
  induction g with
  | nil =>
    intro m h
    simp [pickMax] at h
  | cons p ps ih =>
    intro m h
    cases hq : pickMax ps with
    | none =>
      simp only [pickMax, hq, Option.some_inj] at h
      subst h
      exact List.mem_cons_self _ _
    | some q =>
      simp only [pickMax, hq] at h
      by_cases hc : p.2 < q.2
      · rw [if_pos hc, Option.some_inj] at h
        subst h
        exact List.mem_cons_of_mem _ (ih q hq)
      · rw [if_neg hc, Option.some_inj] at h
        subst h
        exact List.mem_cons_self _ _

lemma pickMax_le : ∀ (g : List (ℕ × ℚ)) (m : ℕ × ℚ), pickMax g = some m →
    ∀ p ∈ g, p.2 ≤ m.2 := by
  intro g
  induction g with
  | nil =>
    intro m h
    simp [pickMax] at h
  | cons p ps ih =>
    intro m h x hx
    cases hq : pickMax ps with
    | none =>
      have hps := pickMax_none ps hq
      subst hps
      simp only [pickMax, hq, Option.some_inj] at h
      subst h
      simp only [List.mem_singleton] at hx
      rw [hx]
    | some q =>
      simp only [pickMax, hq] at h
      by_cases hc : p.2 < q.2
      · rw [if_pos hc, Option.some_inj] at h
        subst h
        rcases List.mem_cons.mp hx with h1 | h1
        · rw [h1]
          exact hc.le
        · exact ih q hq x h1
      · rw [if_neg hc, Option.some_inj] at h
        subst h
        rcases List.mem_cons.mp hx with h1 | h1
        · rw [h1]
        · exact le_trans (ih q hq x h1) (not_lt.mp hc)

lemma filterMap_pickMax_length :
    ∀ gs : List (List (ℕ × ℚ)), (∀ g ∈ gs, g ≠ []) →
      (gs.filterMap pickMax).length = gs.length := by
  intro gs
  induction gs with
  | nil => simp
  | cons g gs ih =>
    intro h
    obtain ⟨m, hm⟩ := pickMax_isSome g (h g (List.mem_cons_self _ _))
    rw [List.filterMap_cons, hm]
    simp [ih fun g' hg' => h g' (List.mem_cons_of_mem _ hg')]

lemma chain_sep_picks (d : ℕ) :
    ∀ gs : List (List (ℕ × ℚ)), (∀ g ∈ gs, g ≠ []) →
      List.Chain' (fun g h => ∀ p ∈ g, ∀ q ∈ h, p.1 + d ≤ q.1) gs →
      List.Chain' (fun p q => p.1 + d ≤ q.1) (gs.filterMap pickMax) := by
  intro gs
  induction gs with
  | nil => simp
  | cons g gs ih =>
    intro hne hch
    obtain ⟨m, hm⟩ := pickMax_isSome g (hne g (List.mem_cons_self _ _))
    rw [List.filterMap_cons, hm]
    obtain ⟨hrel, hch'⟩ := List.chain'_cons'.mp hch
    refine List.chain'_cons'.mpr
      ⟨?_, ih (fun g' hg' => hne g' (List.mem_cons_of_mem _ hg')) hch'⟩
    intro b hb
    cases gs with
    | nil => simp at hb
    | cons h2 gs2 =>
      obtain ⟨m2, hm2⟩ := pickMax_isSome h2 (hne h2 (by simp))
      rw [List.filterMap_cons, hm2] at hb
      simp only [List.head?_cons, Option.mem_def, Option.some_inj] at hb
      subst hb
      exact hrel h2 (by simp) m (pickMax_mem g m hm) m2 (pickMax_mem h2 m2 hm2)

lemma decluster_pairwise_sep (peaks : List (ℕ × ℚ)) (d : ℕ) :
    List.Pairwise (fun p q => p.1 + d ≤ q.1) (decluster peaks d) := by
  have hs : List.Sorted idxLe (List.insertionSort idxLe peaks) :=
    List.sorted_insertionSort idxLe peaks
  have hch := chain_sep_picks d _ (clusterGroups_mem_ne_nil d _)
    (clusterGroups_chain_sep d _ hs)
  haveI : IsTrans (ℕ × ℚ) (fun p q => p.1 + d ≤ q.1) := ⟨fun a b c h1 h2 => by omega⟩
  exact List.chain'_iff_pairwise.mp hch

lemma clusterGroups_separated (d : ℕ) :
    ∀ ps : List (ℕ × ℚ), List.Chain' (fun p q => p.1 + d ≤ q.1) ps →
      clusterGroups d ps = ps.map fun p => [p] := by
  intro ps
  induction ps with
  | nil => simp [clusterGroups]
  | cons p ps ih =>
    intro h
    cases hps : ps with
    | nil =>
      subst hps
      simp [clusterGroups]
    | cons q rest =>
      subst hps
      obtain ⟨hpq, h'⟩ := List.chain'_cons.mp h
      have hrec := ih h'
      simp only [clusterGroups, hrec, List.map_cons]
      rw [if_neg (by omega : ¬ q.1 < p.1 + d)]

lemma filterMap_pickMax_singletons (ps : List (ℕ × ℚ)) :
    (ps.map fun p => [p]).filterMap pickMax = ps := by
  rw [List.filterMap_map]
  have hcomp : (pickMax ∘ fun p : ℕ × ℚ => [p]) = some := by
    funext p
    simp [pickMax, Function.comp]
  rw [hcomp, List.filterMap_some]

/-- Claim C4: decluster returns a subset of the candidates; no two retained
peaks are closer than the separation d; the groups it forms are exactly the
transitive proximity clusters of the index-sorted candidates (they partition
the candidates, consecutive members of a cluster are closer than d, and
consecutive clusters are at least d apart); exactly one candidate is
retained per cluster and it has the highest value in its cluster; in
particular on candidates (10, 1/2), (12, 9/10), (50, 3/10) with separation 5
exactly (12, 9/10) and (50, 3/10) are retained. -/
theorem decluster_correct (peaks : List (ℕ × ℚ)) (d : ℕ) :
    (∀ p ∈ decluster peaks d, p ∈ peaks) ∧
      List.Pairwise (fun p q => p.1 + d ≤ q.1) (decluster peaks d) ∧
      (clusterGroups d (List.insertionSort idxLe peaks)).flatten
        = List.insertionSort idxLe peaks ∧
      (∀ g ∈ clusterGroups d (List.insertionSort idxLe peaks),
        List.Chain' (fun p q => q.1 < p.1 + d) g) ∧
      List.Chain' (fun g h => ∀ p ∈ g, ∀ q ∈ h, p.1 + d ≤ q.1)
        (clusterGroups d (List.insertionSort idxLe peaks)) ∧
      (decluster peaks d).length
        = (clusterGroups d (List.insertionSort idxLe peaks)).length ∧
      (∀ g ∈ clusterGroups d (List.insertionSort idxLe peaks),
        ∃ m, pickMax g = some m ∧ m ∈ g ∧ m ∈ decluster peaks d ∧ ∀ p ∈ g, p.2 ≤ m.2) ∧
      decluster [(10, 1/2), (12, 9/10), (50, 3/10)] 5 = [(12, 9/10), (50, 3/10)] := by
  have hs : List.Sorted idxLe (List.insertionSort idxLe peaks) :=
    List.sorted_insertionSort idxLe peaks
  refine ⟨?_, decluster_pairwise_sep peaks d, clusterGroups_flatten d _,
    clusterGroups_chain_close d _ hs, clusterGroups_chain_sep d _ hs,
    filterMap_pickMax_length _ (clusterGroups_mem_ne_nil d _), ?_, ?_⟩
  · intro p hp
    obtain ⟨g, hg, hpg⟩ := List.mem_filterMap.mp hp
    have hmem := mem_of_mem_clusterGroups d _ g p hg (pickMax_mem g p hpg)
    exact (List.perm_insertionSort idxLe peaks).mem_iff.mp hmem
  · intro g hg
    obtain ⟨m, hm⟩ := pickMax_isSome g (clusterGroups_mem_ne_nil d _ g hg)
    exact ⟨m, hm, pickMax_mem g m hm, List.mem_filterMap.mpr ⟨g, hg, hm⟩,
      pickMax_le g m hm⟩
  · norm_num [decluster, clusterGroups, pickMax, List.insertionSort,
      List.orderedInsert, idxLe, List.filterMap_cons]

theorem decluster_correct_witness :
    ((12 : ℕ), (9 : ℚ)/10) ∈ [((10 : ℕ), (1 : ℚ)/2), (12, 9/10), (50, 3/10)] :=
  (decluster_correct [(10, 1/2), (12, 9/10), (50, 3/10)] 5).1 (12, 9/10)
    (by rw [(decluster_correct [(10, 1/2), (12, 9/10), (50, 3/10)] 5).2.2.2.2.2.2.2]
        simp)

/-- Claim C6: declustering is idempotent — declustering its own output with
the same minimum separation d returns that output unchanged. -/
theorem decluster_idempotent (peaks : List (ℕ × ℚ)) (d : ℕ) :
    decluster (decluster peaks d) d = decluster peaks d := by
  have hp := decluster_pairwise_sep peaks d
  have hsorted : List.Sorted idxLe (decluster peaks d) :=
    hp.imp fun {a b} h => by
      simp only [idxLe]
      omega
  have hs : List.Sorted idxLe (List.insertionSort idxLe peaks) :=
    List.sorted_insertionSort idxLe peaks
  have hch : List.Chain' (fun p q => p.1 + d ≤ q.1) (decluster peaks d) :=
    chain_sep_picks d _ (clusterGroups_mem_ne_nil d _) (clusterGroups_chain_sep d _ hs)
  rw [decluster, List.Sorted.insertionSort_eq hsorted,
    clusterGroups_separated d _ hch, filterMap_pickMax_singletons]

/-- Modelled from the spec (§4.5 Parallel Dispatcher): static partition of a
work list into contiguous chunks of size k (the last chunk may be shorter);
each worker owns one chunk and writes only its own slice of the output. -/
def chunksOf {α : Type*} : ℕ → List α → List (List α)
  | _, [] => []
  | 0, _ :: _ => []
  | k + 1, x :: rest =>
    ((x :: rest).take (k + 1)) :: chunksOf (k + 1) ((x :: rest).drop (k + 1))
termination_by _ xs => xs.length
decreasing_by
  simp only [List.length_drop, List.length_cons]
  omega

lemma chunksOf_flatten {α : Type*} (k : ℕ) (hk : k ≠ 0) (xs : List α) :
    (chunksOf k xs).flatten = xs := by
  match k, xs with
  | _, [] => rw [chunksOf]; rfl
  | 0, x :: rest => exact absurd rfl hk
  | k + 1, x :: rest =>
    rw [chunksOf, List.flatten_cons,
      chunksOf_flatten (k + 1) hk ((x :: rest).drop (k + 1)), List.take_append_drop]
termination_by xs.length
decreasing_by
  simp only [List.length_drop, List.length_cons]
  omega

/-- Modelled from the spec (§4.5): per-worker chunk length for statically
partitioning l work items over n workers (never 0). -/
def chunkSize (l n : ℕ) : ℕ := max 1 ((l + n - 1) / n)

lemma chunkSize_ne_zero (l n : ℕ) : chunkSize l n ≠ 0 := by
  have h : 1 ≤ chunkSize l n := le_max_left _ _
  omega

lemma chunked_map_flatten {α β : Type*} (k : ℕ) (hk : k ≠ 0) (f : α → β) (xs : List α) :
    ((chunksOf k xs).map (List.map f)).flatten = xs.map f := by
  rw [← List.map_flatten, chunksOf_flatten k hk]

/-- Modelled from the spec (§4.2, §6; time_corr.c is not under src/):
multi_normxcorr_time (libutils.h line 71) correlates each template of the
template set against the channel in order. -/
noncomputable def multi_normxcorr_time (ts : List (List ℚ)) (c : List ℚ) : List (List ℝ) :=
  ts.map fun t => normxcorr_time t c

/-- Modelled from the spec (§4.5, §5; time_corr.c is not under src/):
multi_normxcorr_time_threaded (libutils.h line 73) statically partitions the
template set over nthreads workers, each worker correlating its own chunk
and writing only its own output slice; the merged output keeps template
order. -/
noncomputable def multi_normxcorr_time_threaded
    (ts : List (List ℚ)) (c : List ℚ) (nthreads : ℕ) : List (List ℝ) :=
  ((chunksOf (chunkSize ts.length nthreads) ts).map (List.map fun t =>
    normxcorr_time t c)).flatten

/-- Modelled from the spec (§4.3, §4.5; multi_corr.c is not under src/):
multi_normxcorr_fftw (libutils.h line 64) runs the FFT-based correlator over
the template set, partitioned over nthreads workers with one plan and
scratch buffer set per worker. -/
noncomputable def multi_normxcorr_fftw
    (ts : List (List ℚ)) (c : List ℚ) (nthreads : ℕ) : List (List ℝ) :=
  ((chunksOf (chunkSize ts.length nthreads) ts).map (List.map fun t =>
    normxcorr_fftw t c)).flatten

/-- Claim C7: the numeric result of a multi-template correlation call is
independent of the worker-thread count — any positive thread count produces
exactly the 1-thread result, for the time-domain and the FFT-based paths
alike (exact equality, which subsumes the floating-point tolerance). -/
theorem thread_count_invariance (ts : List (List ℚ)) (c : List ℚ) (n : ℕ)
    (_hn : 0 < n) :
    multi_normxcorr_time_threaded ts c n = multi_normxcorr_time_threaded ts c 1 ∧
      multi_normxcorr_fftw ts c n = multi_normxcorr_fftw ts c 1 ∧
      multi_normxcorr_time_threaded ts c n = multi_normxcorr_time ts c := by
  have key : ∀ m : ℕ, multi_normxcorr_time_threaded ts c m = multi_normxcorr_time ts c := by
    intro m
    rw [multi_normxcorr_time_threaded, multi_normxcorr_time,
      chunked_map_flatten _ (chunkSize_ne_zero ts.length m)]
  have keyF : ∀ m : ℕ,
      multi_normxcorr_fftw ts c m = ts.map fun t => normxcorr_fftw t c := by
    intro m
    rw [multi_normxcorr_fftw, chunked_map_flatten _ (chunkSize_ne_zero ts.length m)]
  exact ⟨(key n).trans (key 1).symm, (keyF n).trans (keyF 1).symm, key n⟩

theorem thread_count_invariance_witness :
    multi_normxcorr_time_threaded [[1, 2]] [1, 3, 2, 4] 2
      = multi_normxcorr_time [[1, 2]] [1, 3, 2, 4] :=
  (thread_count_invariance [[1, 2]] [1, 3, 2, 4] 2 (by decide)).2.2

/-- Modelled from the spec (§4.6; find_peaks.c is not under src/):
multi_find_peaks (libutils.h line 49) scans several independent traces (each
with its own threshold) in one call, in parallel across traces, and returns
the per-trace peak lists together with the per-trace peak counts through an
output parameter. -/
def multi_find_peaks (traces : List (List ℚ)) (thresholds : List ℚ) (nthreads : ℕ) :
    List (List ℕ) × List ℕ :=
  let results := ((chunksOf (chunkSize (List.zip traces thresholds).length nthreads)
    (List.zip traces thresholds)).map (List.map fun p => findpeaks p.1 p.2)).flatten
  (results, results.map List.length)

/-- Claim C10: multi_find_peaks scans multiple independent traces in a
single call: its first component lists, per trace and in input order,
exactly the peaks findpeaks reports for that trace with its threshold; the
second component returns the per-trace peak counts; and the parallel
(chunked) execution yields the same result for every positive thread
count. -/
theorem multi_find_peaks_correct (traces : List (List ℚ)) (thresholds : List ℚ)
    (n : ℕ) (_hn : 0 < n) :
    (multi_find_peaks traces thresholds n).1
        = (List.zip traces thresholds).map (fun p => findpeaks p.1 p.2) ∧
      (multi_find_peaks traces thresholds n).2
        = (List.zip traces thresholds).map (fun p => (findpeaks p.1 p.2).length) ∧
      multi_find_peaks traces thresholds n = multi_find_peaks traces thresholds 1 := by
  have key : ∀ m : ℕ,
      (multi_find_peaks traces thresholds m).1
        = (List.zip traces thresholds).map fun p => findpeaks p.1 p.2 := by
    intro m
    rw [multi_find_peaks, chunked_map_flatten _ (chunkSize_ne_zero _ m)]
  have keylen : ∀ m : ℕ,
      (multi_find_peaks traces thresholds m).2
        = (List.zip traces thresholds).map fun p => (findpeaks p.1 p.2).length := by
    intro m
    have h2 : (multi_find_peaks traces thresholds m).2
        = (multi_find_peaks traces thresholds m).1.map List.length := rfl
    rw [h2, key m, List.map_map]
    rfl
  refine ⟨key n, keylen n, ?_⟩
  have hpair : ∀ m : ℕ, multi_find_peaks traces thresholds m
      = ((multi_find_peaks traces thresholds m).1,
         (multi_find_peaks traces thresholds m).2) := fun m => rfl
  rw [hpair n, hpair 1, key n, key 1, keylen n, keylen 1]

theorem multi_find_peaks_correct_witness :
    (multi_find_peaks [[0, 1, 3, 2, 0, 4, 1]] [1 / 2] 4).2
      = [(findpeaks [0, 1, 3, 2, 0, 4, 1] (1 / 2)).length] :=
  ((multi_find_peaks_correct [[0, 1, 3, 2, 0, 4, 1]] [1 / 2] 4 (by decide)).2.1).trans
    (by rfl)

/-- State of the FFT scratch-buffer groups during multi-buffer construction:
how many buffers are currently held (live), how many have been released, and
how many were ever allocated. -/
structure BufState where
  live : ℕ
  released : ℕ
  totalAllocated : ℕ
deriving DecidableEq

/-- Modelled from the spec (§4.4, §6; multi_corr.c is not under src/):
free_fftwf_arrays (libutils.h line 60) releases exactly the count of buffers
it is told were successfully allocated, supporting partial-allocation
rollback. -/
def free_fftwf_arrays (count : ℕ) (st : BufState) : BufState :=
  ⟨st.live - count, st.released + count, st.totalAllocated⟩

/-- Modelled from the spec (§4.3, §4.4, §5; multi_corr.c is not under src/):
step-wise multi-buffer construction inside multi_normxcorr_fftw.  okAt says
whether the i-th allocation (buffer or plan) succeeds; on the first failure
construction stops, tears down every previously allocated buffer by passing
the true allocated count to free_fftwf_arrays, and returns a failure status;
if every step succeeds all nsteps buffers are handed over live with status
0. -/
def constructBuffers (okAt : ℕ → Bool) (nsteps : ℕ) : ℕ → BufState → ℤ × BufState
  | i, st =>
    if i < nsteps then
      if okAt i then
        constructBuffers okAt nsteps (i + 1) ⟨st.live + 1, st.released, st.totalAllocated + 1⟩
      else (-1, free_fftwf_arrays st.live st)
    else (0, st)
termination_by i _ => nsteps - i
decreasing_by omega

lemma constructBuffers_fail (okAt : ℕ → Bool) (nsteps : ℕ) (i : ℕ) (st : BufState)
    (hinv : st.totalAllocated = st.released + st.live)
    (h : ∃ j, i ≤ j ∧ j < nsteps ∧ okAt j = false) :
    (constructBuffers okAt nsteps i st).1 = -1 ∧
      (constructBuffers okAt nsteps i st).2.live = 0 ∧
      (constructBuffers okAt nsteps i st).2.released
        = (constructBuffers okAt nsteps i st).2.totalAllocated := by
  obtain ⟨j, hij, hjn, hfail⟩ := h
  have hin : i < nsteps := Nat.lt_of_le_of_lt hij hjn
  rw [constructBuffers, if_pos hin]
  by_cases hok : okAt i
  · rw [if_pos hok]
    have hij' : i + 1 ≤ j := by
      rcases Nat.eq_or_lt_of_le hij with heq | hlt
      · exfalso
        rw [heq] at hok
        simp [hfail] at hok
      · omega
    exact constructBuffers_fail okAt nsteps (i + 1)
      ⟨st.live + 1, st.released, st.totalAllocated + 1⟩ (by simp [hinv]; omega)
      ⟨j, hij', hjn, hfail⟩
  · rw [if_neg hok]
    refine ⟨rfl, ?_, ?_⟩
    · simp [free_fftwf_arrays]
    · simp [free_fftwf_arrays]
      omega
termination_by nsteps - i
decreasing_by omega

/-- Claim C9: if any buffer allocation or plan-construction step fails
during multi-buffer construction, the call stops and returns a failure
status (-1, never the success status 0), no buffer remains live (nothing is
leaked: every buffer ever allocated has been released), and the teardown
function releases exactly the count of buffers it is told were successfully
allocated. -/
theorem alloc_failure_rollback (okAt : ℕ → Bool) (nsteps : ℕ)
    (h : ∃ j, j < nsteps ∧ okAt j = false) :
    (constructBuffers okAt nsteps 0 ⟨0, 0, 0⟩).1 = -1 ∧
      (constructBuffers okAt nsteps 0 ⟨0, 0, 0⟩).2.live = 0 ∧
      (constructBuffers okAt nsteps 0 ⟨0, 0, 0⟩).2.released
        = (constructBuffers okAt nsteps 0 ⟨0, 0, 0⟩).2.totalAllocated ∧
      (∀ (count : ℕ) (st : BufState),
        (free_fftwf_arrays count st).released = st.released + count) := by
  obtain ⟨j, hjn, hfail⟩ := h
  obtain ⟨h1, h2, h3⟩ := constructBuffers_fail okAt nsteps 0 ⟨0, 0, 0⟩ rfl
    ⟨j, Nat.zero_le j, hjn, hfail⟩
  exact ⟨h1, h2, h3, fun count st => rfl⟩

theorem alloc_failure_rollback_witness :
    (constructBuffers (fun j => j != 1) 3 0 ⟨0, 0, 0⟩).1 = -1 :=
  (alloc_failure_rollback (fun j => j != 1) 3 ⟨1, by decide, by decide⟩).1
